import Mathlib

/-!
Verification of the cato-logger event forwarder.

Shallow embedding of the core pipeline of the `begley-blu/cato-logger`
repository: the marker (cursor) store, the API page assembly, the cycle
orchestrator (`Processor.ProcessEvents` / `forwardEvents` /
`ProcessWithRecovery`), the syslog writer's reconnect state machine, the
scheduler's exponential backoff, and the CEF formatter.  External effects
(file system, network, clock) are modelled as explicit environment inputs;
Go maps are modelled as association lists together with an explicit
iteration order where the order can matter.
-/

namespace CatoLogger

/-! ## Marker store (`internal/marker/marker.go`)

`Manager.Save` creates the marker file's directory and writes the file;
the in-memory `marker` field is assigned only after both operations
succeed.  The two filesystem outcomes are environment inputs
(`mkdirOk`, `writeOk`).  The returned pair is
(new in-memory marker, success flag); `true` models `err == nil`. -/

/-- Model of `Manager.Save`: empty marker is a silent no-op; otherwise the
in-memory value advances to `m` only if both `os.MkdirAll` and
`os.WriteFile` succeed, else it stays at `cur` and the error is
returned. -/
def markerSave (cur m : String) (mkdirOk writeOk : Bool) : String × Bool :=
  if m = "" then (cur, true)
  else if ¬ mkdirOk then (cur, false)
  else if ¬ writeOk then (cur, false)
  else (m, true)

/-- Model of `Manager.Update`: no-op success when `m` is empty or equals the
current in-memory marker, otherwise delegates to `Save`. -/
def markerUpdate (cur m : String) (mkdirOk writeOk : Bool) : String × Bool :=
  if m = "" ∨ m = cur then (cur, true)
  else markerSave cur m mkdirOk writeOk

/-! ## Scheduler backoff (`cmd/cato-logger/main.go`, main service loop)

The stored delay starts at 1 (second).  On a successful cycle the loop
resets it to 1; on a failed cycle the loop first reschedules the ticker
with the *current* stored delay, then doubles it and caps it at
`maxBackoff`.  `backoffStep` is the stored-delay transition for one cycle
outcome (`true` = cycle success). -/

def backoffStep (cap d : Nat) (success : Bool) : Nat :=
  if success then 1
  else if 2 * d > cap then cap else 2 * d

/-- Stored backoff delay after a sequence of cycle outcomes, starting
from the initial `backoffDelay = 1`. -/
def backoffAfter (cap : Nat) (outcomes : List Bool) : Nat :=
  outcomes.foldl (backoffStep cap) 1

/-! ## Syslog writer reconnection (`internal/syslog/writer.go`)

`Writer.Reconnect` first refuses if called within `reconnectDelay` of
`lastReconnect`, then refuses if `reconnectCount` has reached
`maxReconnects`; otherwise it dials (outcome `dialOk` is an environment
input).  On dial failure it increments the counter and sets
`lastReconnect` to Go's zero `time.Time{}`; on success it zeroes the
counter and sets `lastReconnect` to the current time.  The zero time is
modelled as `none`: `time.Since(time.Time{})` is about two millennia, so
the cooldown comparison is always false there. -/

structure Writer where
  reconnectCount : Nat
  lastReconnect : Option Nat
  maxReconnects : Nat
  reconnectDelay : Nat
  deriving DecidableEq, Repr

/-- The writer as built by `NewWriter`: counter 0, zero last-reconnect
time, ceiling 10 attempts, cooldown 5 seconds. -/
def Writer.init : Writer :=
  { reconnectCount := 0, lastReconnect := none
    maxReconnects := 10, reconnectDelay := 5 }

inductive ReconnectResult where
  /-- refused by the cooldown check (`reconnection rate limited`) -/
  | rateLimited
  /-- refused by the attempt ceiling (`max reconnection attempts exceeded`) -/
  | maxExceeded
  /-- a dial was attempted and failed -/
  | failed
  /-- a dial was attempted and succeeded -/
  | ok
  deriving DecidableEq, Repr

/-- Model of `Writer.Reconnect` at wall-clock time `now`, where `dialOk` is the
outcome of `net.DialTimeout` (consulted only if neither refusal fires). -/
def Writer.cooldownHit (w : Writer) (now : Nat) : Bool :=
  match w.lastReconnect with
  | some t => decide (now - t < w.reconnectDelay)
  | none => false

def Writer.reconnect (w : Writer) (now : Nat) (dialOk : Bool) :
    Writer × ReconnectResult :=
  if w.cooldownHit now then
    (w, .rateLimited)
  else if w.reconnectCount ≥ w.maxReconnects then
    (w, .maxExceeded)
  else if dialOk then
    ({ w with reconnectCount := 0, lastReconnect := some now }, .ok)
  else
    ({ w with reconnectCount := w.reconnectCount + 1, lastReconnect := none },
      .failed)

/-- A sequence of `Reconnect` calls, each with its call time and dial
outcome; returns the final writer and the list of results. -/
def Writer.runReconnects (w : Writer) : List (Nat × Bool) → Writer × List ReconnectResult
  | [] => (w, [])
  | (now, dialOk) :: rest =>
    let (w1, r) := w.reconnect now dialOk
    let (w2, rs) := w1.runReconnects rest
    (w2, r :: rs)

/-! ## API page assembly (`internal/api/client.go`)

`FetchEventsPage` parses the response into a candidate marker
(`Marker *string`, so an `Option`) and per-account results, extracts the
records of accounts without an `errorString`, and computes `HasMore`. -/

/-- One per-account entry of the `eventsFeed` response; each record is
a `fieldsMap` (field name to value). -/
structure AccountResult where
  id : String
  errorString : String
  records : List (List (String × String))
  deriving Repr

/-- The `EventsPage` value assembled by `FetchEventsPage`. -/
structure ApiPage where
  events : List (List (String × String))
  newMarker : String
  hasMore : Bool
  deriving Repr

/-- Model of `extractEvents`: records of all accounts, in response order, skipping
any account whose `errorString` is non-empty. -/
def extractEvents : List AccountResult → List (List (String × String))
  | [] => []
  | a :: rest =>
    if a.errorString ≠ "" then extractEvents rest
    else a.records ++ extractEvents rest

/-- The page-assembly tail of `FetchEventsPage` (after HTTP/JSON/GraphQL
error handling): `HasMore` is `len(events) > 0 && NewMarker != ""` when
the response marker is present, and `false` when it is absent. -/
def buildPage (marker : Option String) (accounts : List AccountResult) : ApiPage :=
  let events := extractEvents accounts
  match marker with
  | some m => { events := events, newMarker := m,
                hasMore := decide (0 < events.length) && decide (m ≠ "") }
  | none => { events := events, newMarker := "", hasMore := false }

/-! ## Cycle orchestrator (`internal/processor/processor.go`)

The processor-level model abstracts each event record to the outcome of
its delivery attempts (message construction — CEF formatting, syslog
framing, truncation — never fails and does not affect control flow or
counters).  Per record, `forwardEvents` writes, and on a write failure
performs one `Reconnect` followed by one retry write; `EventDelivery`
records the outcomes of those three possible operations. -/

structure EventDelivery where
  firstWrite : Bool
  reconnect : Bool
  secondWrite : Bool
  deriving DecidableEq, Repr

/-- Model of `Processor.forwardEvents`: sequentially forward a batch, returning
`(forwardedCount, err == nil)`.  A record whose write fails and whose
reconnect or retry write also fails aborts the rest of the batch,
returning the count of records forwarded before it. -/
def forwardEvents : List EventDelivery → Nat × Bool
  | [] => (0, true)
  | d :: rest =>
    if d.firstWrite then
      let (n, ok) := forwardEvents rest
      (n + 1, ok)
    else if ¬ d.reconnect then (0, false)
    else if d.secondWrite then
      let (n, ok) := forwardEvents rest
      (n + 1, ok)
    else (0, false)

/-- Whether one record's forwarding succeeds: either the first write
succeeds, or the reconnect (after a failed write) and the retry write
both succeed. -/
def forwardOne (d : EventDelivery) : Bool :=
  d.firstWrite || (d.reconnect && d.secondWrite)

/-- One page as seen by the processor: the delivery outcomes of its
events, the candidate marker, and the `HasMore` flag. -/
structure ProcPage where
  events : List EventDelivery
  newMarker : String
  hasMore : Bool
  deriving Repr

/-- Environment of one `ProcessEvents` call, indexed by loop iteration
(equivalently by fetch call: each loop iteration that passes the
cancellation check performs exactly one `FetchWithRetry`):
`cancelled i` is the `ctx.Done()` check at the top of iteration `i`,
`fetch i` the result of the `i`-th fetch (`none` = all retries failed),
and `persist i` the `(MkdirAll, WriteFile)` outcomes of a marker save
attempted during iteration `i`. -/
structure CycleEnv where
  cancelled : Nat → Bool
  fetch : Nat → Option ProcPage
  persist : Nat → Bool × Bool

/-- Mutable state of one cycle.  `mgrMarker` is the marker manager's
in-memory value; `statsEvents` / `statsFailed` are the deltas applied to
the shared `Stats` counters.  `savedMarkers` is a ghost trace (it never
influences control flow): the page markers that were actually persisted
successfully, in order. -/
structure CycleState where
  totalEventsProcessed : Nat
  paginationCount : Nat
  currentMarker : String
  mgrMarker : String
  statsEvents : Nat
  statsFailed : Nat
  numErrors : Nat
  markerUpdates : Nat
  fetchCalls : Nat
  savedMarkers : List String
  deriving Repr

inductive CycleResult where
  /-- case where `ProcessEvents` returned `nil` -/
  | ok
  /-- case where `ProcessEvents` returned the cancellation error -/
  | cancelledErr
  deriving DecidableEq, Repr

/-- The post-forwarding part of one successful loop iteration: add the
forwarded count `n` to the cycle total and the shared counter (only when
the page was non-empty, mirroring `if len(page.Events) > 0`), then
perform the marker update when the page's candidate marker is non-empty
and differs from the local `currentMarker`.  On a persistence failure
the local `currentMarker` still advances (the Go code assigns it before
calling `Update`) while the manager's in-memory value stays put.
`s1` is the state right after `paginationCount++`. -/
def pageSuccessStep (s1 : CycleState) (page : ProcPage) (n : Nat)
    (persist : Bool × Bool) : CycleState :=
  let s2 :=
    if 0 < page.events.length then
      { s1 with totalEventsProcessed := s1.totalEventsProcessed + n,
                statsEvents := s1.statsEvents + n }
    else s1
  if page.newMarker ≠ "" ∧ page.newMarker ≠ s2.currentMarker then
    let cur := page.newMarker
    let pr := markerUpdate s2.mgrMarker cur persist.1 persist.2
    if pr.2 then
      { s2 with currentMarker := cur,
                mgrMarker := pr.1,
                markerUpdates := s2.markerUpdates + 1,
                savedMarkers :=
                  if cur = s2.mgrMarker then s2.savedMarkers
                  else s2.savedMarkers ++ [cur] }
    else
      { s2 with currentMarker := cur,
                numErrors := s2.numErrors + 1 }
  else s2

theorem pageSuccessStep_paginationCount (s1 : CycleState) (page : ProcPage)
    (n : Nat) (persist : Bool × Bool) :
    (pageSuccessStep s1 page n persist).paginationCount = s1.paginationCount := by
  unfold pageSuccessStep
  split <;> dsimp only <;> split <;> first | rfl | (split <;> rfl)

/-- The body of the pagination loop of `ProcessEvents`, from a state with
`s.fetchCalls = i`.  Mirrors the Go control flow: cancellation check,
fetch (failure breaks), `paginationCount++`, forwarding (failure logs,
counts the error and `continue`s — skipping the cycle totals, the marker
update and the `HasMore` check), marker update (failure logged and
counted, in-memory value kept), stop on `!HasMore`.

`fuel` bounds the remaining loop iterations so the recursion is
structural; every iteration increments `paginationCount` by exactly one,
so supplying `maxPag` at entry (as `processEvents` does) means the fuel
can never run out before the `paginationCount < MaxPagination` loop
condition fails — the `fuel = 0` clause coincides with the loop's own
exit.  All loop lemmas below accordingly carry the hypothesis
`maxPag - s.paginationCount ≤ fuel`. -/
def processLoop (env : CycleEnv) (maxPag : Nat) :
    Nat → Nat → CycleState → CycleState × CycleResult
  | 0, _, s => (s, .ok)
  | fuel + 1, i, s =>
    if s.paginationCount < maxPag then
      if env.cancelled i then (s, .cancelledErr)
      else
        match env.fetch i with
        | none =>
          ({ s with numErrors := s.numErrors + 1,
                    fetchCalls := s.fetchCalls + 1 }, .ok)
        | some page =>
          let s1 := { s with fetchCalls := s.fetchCalls + 1,
                             paginationCount := s.paginationCount + 1 }
          let fr := forwardEvents page.events
          if 0 < page.events.length ∧ fr.2 = false then
            -- forwarding failed: count the error and continue the loop
            processLoop env maxPag fuel (i + 1)
              { s1 with numErrors := s1.numErrors + 1 }
          else
            let s3 := pageSuccessStep s1 page fr.1 (env.persist i)
            if page.hasMore then processLoop env maxPag fuel (i + 1) s3
            else (s3, .ok)
    else (s, .ok)

/-- Initial cycle state: local `currentMarker` starts at the manager's
in-memory marker (`markerManager.Get()`). -/
def initState (initMarker : String) : CycleState :=
  { totalEventsProcessed := 0, paginationCount := 0
    currentMarker := initMarker, mgrMarker := initMarker
    statsEvents := 0, statsFailed := 0
    numErrors := 0, markerUpdates := 0, fetchCalls := 0
    savedMarkers := [] }

/-- Model of `Processor.ProcessEvents`: run the pagination loop from the initial
state, with fuel `maxPag` (each iteration raises `paginationCount` by
one, so this never exhausts before the loop condition stops it).  The
post-loop statistics computation (duration, events/sec) only logs and is
omitted; the returned `CycleResult` is the function's error value. -/
def processEvents (env : CycleEnv) (maxPag : Nat) (initMarker : String) :
    CycleState × CycleResult :=
  processLoop env maxPag maxPag 0 (initState initMarker)

/-- Model of `Processor.ProcessWithRecovery` (no panics occur in this model):
returns `false` and increments the failed-requests counter exactly when
`ProcessEvents` returned an error. -/
def processWithRecovery (env : CycleEnv) (maxPag : Nat) (initMarker : String) :
    CycleState × Bool :=
  let r := processEvents env maxPag initMarker
  match r.2 with
  | .ok => (r.1, true)
  | .cancelledErr => ({ r.1 with statsFailed := r.1.statsFailed + 1 }, false)

/-! ## CEF formatter (`internal/cef/formatter.go`)

Go maps are unordered; `Formatter.Format` iterates the event's
`fieldsMap` and the configured `fieldMappings` map.  Both are modelled as
the underlying key lookup plus an explicit iteration order: the event map
is a lookup function `fields : String → Option String` together with the
key enumeration order `fieldKeys`, and the rename table is the list
`fieldMappings` in its iteration order (its lookup is only ever used as a
membership test, via `isMappedField`).  The `extensions` map is an
association list whose assignment replaces in place (`setExt`), matching
Go map assignment up to entry order — which the output never observes,
since the remaining keys are sorted before emission. -/

/-- Model of `sanitizeValue`: the Go code applies five `strings.ReplaceAll`
passes, escaping `\`, `=`, `|`, LF, CR in that order.  No pass inserts a
character that a later pass replaces (the escapes introduce only `\`,
which only the already-finished first pass rewrites), so the sequential
passes equal this single character-by-character translation. -/
def escapeChar (c : Char) : List Char :=
  if c = '\\' then ['\\', '\\']
  else if c = '=' then ['\\', '=']
  else if c = '|' then ['\\', '|']
  else if c = '\n' then ['\\', 'n']
  else if c = '\r' then ['\\', 'r']
  else [c]

def sanitizeValue (v : String) : String :=
  ⟨v.data.foldr (fun c acc => escapeChar c ++ acc) []⟩

/-- Model of `mapEventTypeToSeverity`: static severity lookup, default 5. -/
def mapEventTypeToSeverity (eventType : String) : Nat :=
  if eventType = "Threat" then 10
  else if eventType = "Malware" then 10
  else if eventType = "Attack" then 9
  else if eventType = "Intrusion" then 9
  else if eventType = "Security" then 8
  else if eventType = "Policy Violation" then 7
  else if eventType = "Warning" then 6
  else if eventType = "Alert" then 6
  else if eventType = "Connectivity" then 5
  else if eventType = "Network" then 4
  else if eventType = "Traffic" then 3
  else if eventType = "Info" then 2
  else if eventType = "Debug" then 1
  else 5

/-- Model of `getMapValue`: map value with default, treating `""` as absent. -/
def getMapValue (fields : String → Option String) (key default : String) : String :=
  match fields key with
  | some v => if v = "" then default else v
  | none => default

/-- Lexicographic comparison of character lists by code point.  UTF-8
byte order coincides with code-point order, so this is the order
`sort.Strings` uses in Go.  (Defined from scratch because it must reduce
inside the kernel.) -/
def lexLe : List Char → List Char → Bool
  | [], _ => true
  | _ :: _, [] => false
  | a :: as, b :: bs =>
    if a.toNat < b.toNat then true
    else if b.toNat < a.toNat then false
    else lexLe as bs

def strLe (a b : String) : Bool := lexLe a.data b.data

/-- Model of `sort.Strings`. -/
def sortStrings (l : List String) : List String :=
  List.insertionSort (fun a b => strLe a b = true) l

/-- Go map read on the `extensions` association list (keys are unique). -/
def findExt : List (String × String) → String → Option String
  | [], _ => none
  | (k, v) :: rest, key => if k = key then some v else findExt rest key

/-- Go map assignment `extensions[key] = val`: replace in place, append
when absent. -/
def setExt : List (String × String) → String → String → List (String × String)
  | [], key, val => [(key, val)]
  | (k, v) :: rest, key, val =>
    if k = key then (key, val) :: rest else (k, v) :: setExt rest key val

/-- Go `delete(extensions, key)`. -/
def eraseExt : List (String × String) → String → List (String × String)
  | [], _ => []
  | (k, v) :: rest, key =>
    if k = key then rest else (k, v) :: eraseExt rest key

def extKeys (l : List (String × String)) : List String := l.map Prod.fst

/-- Model of `isMappedField`: does the rename table contain this source field? -/
def isMappedField (k : String) (mappings : List (String × String)) : Bool :=
  mappings.any (fun st => st.1 == k)

structure Formatter where
  vendor : String
  product : String
  version : String
  fieldMappings : List (String × String)
  orderedFields : List String

/-- One step of the ordered-fields emission loop: emit and delete the
field if present in `extensions`, each consumed at most once. -/
def orderedStep (p : List String × List (String × String)) (field : String) :
    List String × List (String × String) :=
  match findExt p.2 field with
  | some v => (p.1 ++ [field ++ "=" ++ v], eraseExt p.2 field)
  | none => p

/-- Model of `Formatter.Format`.  Here `fields`/`fieldKeys` are the event's
`fieldsMap` lookup and iteration order; `f.fieldMappings` carries its own
iteration order. -/
def Formatter.format (f : Formatter) (fields : String → Option String)
    (fieldKeys : List String) : String :=
  let signature := getMapValue fields "event_type" "Unknown"
  let name := signature ++ " - " ++ getMapValue fields "event_sub_type" "Unknown"
  let severity := mapEventTypeToSeverity signature
  let header := "CEF:0|" ++ f.vendor ++ "|" ++ f.product ++ "|" ++ f.version
    ++ "|" ++ signature ++ "|" ++ name ++ "|" ++ toString severity ++ "|"
  -- apply field mappings
  let ext1 := f.fieldMappings.foldl (fun e st =>
    match fields st.1 with
    | some v => if v = "" then e else setExt e st.2 (sanitizeValue v)
    | none => e) []
  -- add unmapped fields
  let ext2 := fieldKeys.foldl (fun e k =>
    if isMappedField k f.fieldMappings then e
    else match fields k with
      | some v => if v = "" then e else setExt e k (sanitizeValue v)
      | none => e) ext1
  -- ordered fields first, then remaining fields alphabetically
  let po := f.orderedFields.foldl orderedStep ([], ext2)
  let remaining := sortStrings (extKeys po.2)
  let parts := po.1 ++ remaining.map (fun k => k ++ "=" ++ ((findExt po.2 k).getD ""))
  header ++ String.intercalate " " parts

/-- The `(targetKey, sanitized value)` assignments performed by the
field-mappings loop of `Format`, in iteration order. -/
def mappingWrites (fields : String → Option String)
    (mappings : List (String × String)) : List (String × String) :=
  mappings.filterMap (fun st =>
    match fields st.1 with
    | some v => if v = "" then none else some (st.2, sanitizeValue v)
    | none => none)

/-- The `(key, sanitized value)` assignments performed by the
unmapped-fields loop of `Format`, in iteration order. -/
def unmappedWrites (fields : String → Option String)
    (mappings : List (String × String)) (fieldKeys : List String) :
    List (String × String) :=
  fieldKeys.filterMap (fun k =>
    if isMappedField k mappings then none
    else match fields k with
      | some v => if v = "" then none else some (k, sanitizeValue v)
      | none => none)

/-- Fold a list of map assignments into an `extensions` list. -/
def applyWrites (e : List (String × String)) (ws : List (String × String)) :
    List (String × String) :=
  ws.foldl (fun e kv => setExt e kv.1 kv.2) e

/-- Writer state invariant: a strictly positive failure counter implies
the cooldown clock was cleared (the last attempt failed, which set
`lastReconnect` to the zero time). -/
def WInv (w : Writer) : Prop := 0 < w.reconnectCount → w.lastReconnect = none

/-- The contribution of the `j`-th fetch to the cycle's forwarded-events
total: the batch's forwarded count if its forwarding succeeded, `0` on a
fetch failure or a forwarding failure. -/
def pageContribution (env : CycleEnv) (j : Nat) : Nat :=
  match env.fetch j with
  | none => 0
  | some p =>
    let fr := forwardEvents p.events
    if fr.2 then fr.1 else 0

/-- Two `extensions` association lists that denote the same Go map: the
same lookup function and the same key set (each with unique keys). -/
def ExtEquiv (e₁ e₂ : List (String × String)) : Prop :=
  (∀ k, findExt e₁ k = findExt e₂ k)
  ∧ (extKeys e₁).Perm (extKeys e₂)
  ∧ (extKeys e₁).Nodup ∧ (extKeys e₂).Nodup

/-! ## Theorems -/

/-! ### Writer reconnection lemmas -/

theorem reconnect_cooldown_refuse (w : Writer) (now t : Nat) (dialOk : Bool)
    (hl : w.lastReconnect = some t) (hw : now - t < w.reconnectDelay) :
    w.reconnect now dialOk = (w, .rateLimited) := by
  unfold Writer.reconnect Writer.cooldownHit
  rw [hl]
  simp [hw]

theorem reconnect_success_eq (w : Writer) (now : Nat)
    (hcd : w.cooldownHit now = false) (hmax : w.reconnectCount < w.maxReconnects) :
    w.reconnect now true
      = ({ w with reconnectCount := 0, lastReconnect := some now }, .ok) := by
  unfold Writer.reconnect
  simp [hcd, Nat.not_le.mpr hmax]

theorem reconnect_fail_eq (w : Writer) (now : Nat)
    (hcd : w.cooldownHit now = false) (hmax : w.reconnectCount < w.maxReconnects) :
    w.reconnect now false
      = ({ w with reconnectCount := w.reconnectCount + 1, lastReconnect := none },
          .failed) := by
  unfold Writer.reconnect
  simp [hcd, Nat.not_le.mpr hmax]

theorem reconnect_preserves_WInv (w : Writer) (now : Nat) (d : Bool)
    (h : WInv w) : WInv (w.reconnect now d).1 := by
  unfold Writer.reconnect
  split
  · exact h
  · split
    · exact h
    · split <;> intro hc <;> simp_all [WInv]

theorem reconnect_ceiling_refuse (w : Writer) (now : Nat) (d : Bool)
    (hinv : WInv w) (hpos : 1 ≤ w.maxReconnects)
    (hmax : w.maxReconnects ≤ w.reconnectCount) :
    w.reconnect now d = (w, .maxExceeded) := by
  have hl : w.lastReconnect = none := hinv (Nat.lt_of_lt_of_le hpos hmax)
  unfold Writer.reconnect Writer.cooldownHit
  rw [hl]
  simp [hmax]

theorem runReconnects_ceiling (w : Writer)
    (hinv : WInv w) (hpos : 1 ≤ w.maxReconnects)
    (hmax : w.maxReconnects ≤ w.reconnectCount) :
    ∀ calls, w.runReconnects calls = (w, calls.map fun _ => .maxExceeded) := by
  intro calls
  induction calls with
  | nil => rfl
  | cons c rest ih =>
    obtain ⟨now, dialOk⟩ := c
    unfold Writer.runReconnects
    rw [reconnect_ceiling_refuse w now dialOk hinv hpos hmax]
    simp [ih]

/-- C5 (amended): cooldown refusal applies to any call within the
cooldown window of the previous **successful** attempt; a failed attempt
clears the cooldown clock to the zero time, so the cooldown does not
refuse the call after a failure.  A call once the consecutive-failure
counter has reached the ceiling is refused without a network operation,
and — since the refusal leaves the state unchanged and the counter only
resets on a success that can no longer happen — every later call in the
process is refused the same way.  A successful reconnect resets the
counter and starts the cooldown clock; a failed reconnect increments the
counter, clears the cooldown clock, and reports the failure. -/
theorem reconnect_state_machine (w : Writer) :
    (∀ now t dialOk, w.lastReconnect = some t → now - t < w.reconnectDelay →
        w.reconnect now dialOk = (w, .rateLimited))
    ∧ (∀ now, w.cooldownHit now = false → w.reconnectCount < w.maxReconnects →
        w.reconnect now true
          = ({ w with reconnectCount := 0, lastReconnect := some now }, .ok))
    ∧ (∀ now, w.cooldownHit now = false → w.reconnectCount < w.maxReconnects →
        w.reconnect now false
          = ({ w with reconnectCount := w.reconnectCount + 1, lastReconnect := none }, .failed))
    ∧ (WInv w → 1 ≤ w.maxReconnects → w.maxReconnects ≤ w.reconnectCount →
        ∀ calls, w.runReconnects calls = (w, calls.map fun _ => .maxExceeded))
    ∧ (WInv w → ∀ now d, WInv (w.reconnect now d).1)
    ∧ WInv Writer.init := by
  refine ⟨?_, ?_, ?_, ?_, ?_, ?_⟩
  · intro now t dialOk hl hw
    exact reconnect_cooldown_refuse w now t dialOk hl hw
  · intro now hcd hmax
    exact reconnect_success_eq w now hcd hmax
  · intro now hcd hmax
    exact reconnect_fail_eq w now hcd hmax
  · intro hinv hpos hmax calls
    exact runReconnects_ceiling w hinv hpos hmax calls
  · intro h now d
    exact reconnect_preserves_WInv w now d h
  · intro hc
    simp [Writer.init] at hc

/-- Concrete instance of the amended C5 theorem: a writer whose last
attempt succeeded at time 10 refuses (rate-limited, no dial) a call at
time 12, inside the 5-unit cooldown. -/
theorem reconnect_state_machine_witness :
    (Writer.mk 0 (some 10) 10 5).reconnect 12 true
      = (Writer.mk 0 (some 10) 10 5, .rateLimited) := by
  have h := (reconnect_state_machine (Writer.mk 0 (some 10) 10 5)).1 12 10 true
    rfl (by decide)
  simpa using h

/-- Counterexample to C5 as stated: at time 0 a reconnect attempt fails;
the next call at time 1 lies inside the 5-unit cooldown window of that
(failed) attempt, yet it is **not** refused — a dial is performed (the
outcome depends on the dial result) and here succeeds.  The claim's
"whether that attempt succeeded or failed" does not hold: a failed
attempt resets the cooldown clock to the zero time. -/
theorem reconnect_cooldown_after_failure_cex :
    (Writer.init.reconnect 0 false).2 = .failed
    ∧ 1 - 0 < Writer.init.reconnectDelay
    ∧ ((Writer.init.reconnect 0 false).1.reconnect 1 true).2 = .ok
    ∧ ((Writer.init.reconnect 0 false).1.reconnect 1 false).2 = .failed := by
  decide

/-! ### Scheduler backoff lemmas -/

theorem backoffStep_false_eq_min (cap d : Nat) :
    backoffStep cap d false = min (2 * d) cap := by
  simp only [backoffStep, Bool.false_eq_true, if_false]
  split <;> omega

theorem backoffIter (cap : Nat) :
    ∀ k d : Nat, d ≤ cap →
      (List.replicate k false).foldl (backoffStep cap) d = min (2 ^ k * d) cap := by
  intro k
  induction k with
  | zero =>
    intro d hd
    simp [Nat.min_eq_left hd]
  | succ n ih =>
    intro d hd
    rw [List.replicate_succ, List.foldl_cons, backoffStep_false_eq_min,
      ih (min (2 * d) cap) (Nat.min_le_right _ _)]
    rcases Nat.le_total (2 * d) cap with h | h
    · rw [Nat.min_eq_left h]
      have : 2 ^ n * (2 * d) = 2 ^ (n + 1) * d := by ring
      rw [this]
    · rw [Nat.min_eq_right h]
      have h1 : cap ≤ 2 ^ n * cap :=
        Nat.le_mul_of_pos_left cap (Nat.pos_pow_of_pos n (by omega))
      have h2 : cap ≤ 2 ^ (n + 1) * d := by
        calc cap ≤ 2 * d := h
        _ ≤ 2 ^ (n + 1) * d := by
            have : (2 : Nat) ≤ 2 ^ (n + 1) := by
              calc (2 : Nat) = 2 ^ 1 := by norm_num
              _ ≤ 2 ^ (n + 1) := Nat.pow_le_pow_right (by omega) (by omega)
            exact Nat.mul_le_mul_right d this
      omega

/-- C6: starting from the base delay 1, the delay the scheduler feeds the
ticker on the `k`-th consecutive cycle failure (the stored delay after
`k − 1` failures, since the ticker is reset before the doubling) equals
`2^(k−1)` capped at the configured ceiling — both from process start and
after any cycle success, which resets the stored delay to the base; and
whatever the outcome history, the stored delay stays between the base 1
and the ceiling. -/
theorem backoff_spec (cap : Nat) (hcap : 1 ≤ cap) :
    (∀ (pre : List Bool) (k : Nat), 1 ≤ k →
        backoffAfter cap (pre ++ true :: List.replicate (k - 1) false)
          = min (2 ^ (k - 1)) cap)
    ∧ (∀ k : Nat, 1 ≤ k →
        backoffAfter cap (List.replicate (k - 1) false) = min (2 ^ (k - 1)) cap)
    ∧ (∀ d, backoffStep cap d true = 1)
    ∧ (∀ outcomes,
        1 ≤ backoffAfter cap outcomes ∧ backoffAfter cap outcomes ≤ cap) := by
  have hbase : ∀ k : Nat, (List.replicate k false).foldl (backoffStep cap) 1
      = min (2 ^ k) cap := by
    intro k
    have h := backoffIter cap k 1 hcap
    simpa using h
  refine ⟨?_, ?_, ?_, ?_⟩
  · intro pre k _
    unfold backoffAfter
    rw [List.foldl_append, List.foldl_cons]
    have hstep : backoffStep cap (List.foldl (backoffStep cap) 1 pre) true = 1 := rfl
    rw [hstep, hbase]
  · intro k _
    exact hbase (k - 1)
  · intro d
    rfl
  · intro outcomes
    unfold backoffAfter
    induction outcomes using List.reverseRecOn with
    | nil => simp; omega
    | append_singleton l b ih =>
      rw [List.foldl_append, List.foldl_cons, List.foldl_nil]
      cases b
      · rw [backoffStep_false_eq_min]
        omega
      · simp only [backoffStep, if_true]
        omega

/-- Concrete instance of the C6 theorem: with base 1 and ceiling 300 the
delays used on the first four consecutive failures are 1, 2, 4, 8. -/
theorem backoff_spec_witness :
    backoffAfter 300 [false, false, false] = min (2 ^ 3) 300
    ∧ backoffAfter 300 [true, false] = min (2 ^ 1) 300 := by
  constructor
  · have h := (backoff_spec 300 (by decide)).2.1 4 (by decide)
    simpa using h
  · have h := (backoff_spec 300 (by decide)).1 [] 2 (by decide)
    simpa using h

/-! ### API page assembly -/

/-- C8: the assembled page's `HasMore` flag is true exactly when the
response marker is present and non-empty **and** at least one event
record was extracted; in particular an absent marker or an empty page
yields `HasMore = false`. -/
theorem hasMore_spec (marker : Option String) (accounts : List AccountResult) :
    (buildPage marker accounts).hasMore = true ↔
      (∃ m, marker = some m ∧ m ≠ "") ∧ 0 < (extractEvents accounts).length := by
  cases marker with
  | none => simp [buildPage]
  | some m =>
    simp only [buildPage, Bool.and_eq_true, decide_eq_true_eq, Option.some.injEq]
    constructor
    · rintro ⟨h1, h2⟩
      exact ⟨⟨m, rfl, h2⟩, h1⟩
    · rintro ⟨⟨m', hm', hne⟩, h1⟩
      exact ⟨h1, hm' ▸ hne⟩

/-! ### Cycle orchestrator lemmas -/

theorem pageSuccessStep_fetchCalls (s1 : CycleState) (page : ProcPage)
    (n : Nat) (persist : Bool × Bool) :
    (pageSuccessStep s1 page n persist).fetchCalls = s1.fetchCalls := by
  unfold pageSuccessStep
  split <;> dsimp only <;> split <;> first | rfl | (split <;> rfl)

theorem pageSuccessStep_statsFailed (s1 : CycleState) (page : ProcPage)
    (n : Nat) (persist : Bool × Bool) :
    (pageSuccessStep s1 page n persist).statsFailed = s1.statsFailed := by
  unfold pageSuccessStep
  split <;> dsimp only <;> split <;> first | rfl | (split <;> rfl)

theorem pageSuccessStep_total (s1 : CycleState) (page : ProcPage)
    (n : Nat) (persist : Bool × Bool) :
    (pageSuccessStep s1 page n persist).totalEventsProcessed
      = (if 0 < page.events.length then s1.totalEventsProcessed + n
         else s1.totalEventsProcessed) := by
  unfold pageSuccessStep
  split <;> dsimp only <;> split <;> first | rfl | (split <;> rfl)

theorem pageSuccessStep_statsEvents (s1 : CycleState) (page : ProcPage)
    (n : Nat) (persist : Bool × Bool) :
    (pageSuccessStep s1 page n persist).statsEvents
      = (if 0 < page.events.length then s1.statsEvents + n
         else s1.statsEvents) := by
  unfold pageSuccessStep
  split <;> dsimp only <;> split <;> first | rfl | (split <;> rfl)

/-- The marker manager's in-memory value always equals the last
successfully persisted page marker (default `d` when none was persisted
yet); one successful loop iteration preserves this. -/
theorem pageSuccessStep_mgr (s1 : CycleState) (page : ProcPage)
    (n : Nat) (persist : Bool × Bool) (d : String)
    (h : s1.mgrMarker = s1.savedMarkers.getLastD d) :
    (pageSuccessStep s1 page n persist).mgrMarker
      = (pageSuccessStep s1 page n persist).savedMarkers.getLastD d := by
  unfold pageSuccessStep
  split <;> dsimp only
  all_goals split
  all_goals try exact h
  all_goals rename_i hmark
  all_goals split
  all_goals try exact h
  all_goals rename_i hpr
  all_goals dsimp only
  all_goals split
  all_goals rename_i hcur
  · simp only [markerUpdate, hcur, or_true, if_true] at hpr ⊢
    exact h
  · cases hp1 : persist.1 <;> cases hp2 : persist.2 <;>
      simp_all [markerUpdate, markerSave, List.getLastD_concat]
  · simp only [markerUpdate, hcur, or_true, if_true] at hpr ⊢
    exact h
  · cases hp1 : persist.1 <;> cases hp2 : persist.2 <;>
      simp_all [markerUpdate, markerSave, List.getLastD_concat]

theorem processLoop_stop (env : CycleEnv) (maxPag fuel i : Nat) (s : CycleState)
    (hp : ¬ s.paginationCount < maxPag) :
    processLoop env maxPag fuel i s = (s, .ok) := by
  cases fuel with
  | zero => rfl
  | succ f =>
    unfold processLoop
    simp [hp]

theorem processLoop_fetchCalls_le (env : CycleEnv) (maxPag : Nat) :
    ∀ (fuel i : Nat) (s : CycleState), maxPag - s.paginationCount ≤ fuel →
      (processLoop env maxPag fuel i s).1.fetchCalls
        ≤ s.fetchCalls + (maxPag - s.paginationCount) := by
  intro fuel
  induction fuel with
  | zero =>
    intro i s hf
    have hp : ¬ s.paginationCount < maxPag := by omega
    rw [processLoop_stop env maxPag _ i s hp]
    dsimp only
    omega
  | succ f ih =>
    intro i s hf
    by_cases hp : s.paginationCount < maxPag
    · unfold processLoop
      simp only [hp, if_true]
      by_cases hc : env.cancelled i
      · simp [hc]
      · simp only [hc, Bool.false_eq_true, if_false]
        cases hfetch : env.fetch i with
        | none => simp; omega
        | some page =>
          dsimp only
          split
          · refine Nat.le_trans (ih (i + 1) _ ?_) ?_ <;> simp <;> omega
          · split
            · refine Nat.le_trans (ih (i + 1) _ ?_) ?_ <;>
                simp [pageSuccessStep_paginationCount, pageSuccessStep_fetchCalls] <;>
                omega
            · simp [pageSuccessStep_fetchCalls]
              omega
    · rw [processLoop_stop env maxPag _ i s hp]
      dsimp only
      omega

theorem processLoop_fetchCalls_mono (env : CycleEnv) (maxPag : Nat) :
    ∀ (fuel i : Nat) (s : CycleState), maxPag - s.paginationCount ≤ fuel →
      s.fetchCalls ≤ (processLoop env maxPag fuel i s).1.fetchCalls := by
  intro fuel
  induction fuel with
  | zero =>
    intro i s hf
    have hp : ¬ s.paginationCount < maxPag := by omega
    rw [processLoop_stop env maxPag _ i s hp]
  | succ f ih =>
    intro i s hf
    by_cases hp : s.paginationCount < maxPag
    · unfold processLoop
      simp only [hp, if_true]
      by_cases hc : env.cancelled i
      · simp [hc]
      · simp only [hc, Bool.false_eq_true, if_false]
        cases hfetch : env.fetch i with
        | none => simp
        | some page =>
          dsimp only
          split
          · refine Nat.le_trans ?_ (ih (i + 1) _ ?_) <;> simp <;> omega
          · split
            · refine Nat.le_trans ?_ (ih (i + 1) _ ?_) <;>
                simp [pageSuccessStep_paginationCount, pageSuccessStep_fetchCalls] <;>
                omega
            · simp [pageSuccessStep_fetchCalls]
    · rw [processLoop_stop env maxPag _ i s hp]

theorem processLoop_ok_of_no_cancel (env : CycleEnv) (maxPag : Nat)
    (hc : ∀ j, env.cancelled j = false) :
    ∀ (fuel i : Nat) (s : CycleState), maxPag - s.paginationCount ≤ fuel →
      (processLoop env maxPag fuel i s).2 = .ok := by
  intro fuel
  induction fuel with
  | zero =>
    intro i s hf
    have hp : ¬ s.paginationCount < maxPag := by omega
    rw [processLoop_stop env maxPag _ i s hp]
  | succ f ih =>
    intro i s hf
    by_cases hp : s.paginationCount < maxPag
    · unfold processLoop
      simp only [hp, if_true, hc i, Bool.false_eq_true, if_false]
      cases hfetch : env.fetch i with
      | none => simp
      | some page =>
        dsimp only
        split
        · refine ih (i + 1) _ ?_
          simp
          omega
        · split
          · refine ih (i + 1) _ ?_
            simp [pageSuccessStep_paginationCount]
            omega
          · rfl
    · rw [processLoop_stop env maxPag _ i s hp]

theorem processLoop_statsFailed (env : CycleEnv) (maxPag : Nat) :
    ∀ (fuel i : Nat) (s : CycleState), maxPag - s.paginationCount ≤ fuel →
      (processLoop env maxPag fuel i s).1.statsFailed = s.statsFailed := by
  intro fuel
  induction fuel with
  | zero =>
    intro i s hf
    have hp : ¬ s.paginationCount < maxPag := by omega
    rw [processLoop_stop env maxPag _ i s hp]
  | succ f ih =>
    intro i s hf
    by_cases hp : s.paginationCount < maxPag
    · unfold processLoop
      simp only [hp, if_true]
      by_cases hc : env.cancelled i
      · simp [hc]
      · simp only [hc, Bool.false_eq_true, if_false]
        cases hfetch : env.fetch i with
        | none => simp
        | some page =>
          dsimp only
          split
          · rw [ih (i + 1) _ (by simp; omega)]
          · split
            · rw [ih (i + 1) _ (by simp [pageSuccessStep_paginationCount]; omega)]
              exact pageSuccessStep_statsFailed _ _ _ _
            · exact pageSuccessStep_statsFailed _ _ _ _
    · rw [processLoop_stop env maxPag _ i s hp]

theorem processLoop_mgr (env : CycleEnv) (maxPag : Nat) (d : String) :
    ∀ (fuel i : Nat) (s : CycleState), maxPag - s.paginationCount ≤ fuel →
      s.mgrMarker = s.savedMarkers.getLastD d →
      (processLoop env maxPag fuel i s).1.mgrMarker
        = (processLoop env maxPag fuel i s).1.savedMarkers.getLastD d := by
  intro fuel
  induction fuel with
  | zero =>
    intro i s hf hm
    have hp : ¬ s.paginationCount < maxPag := by omega
    rw [processLoop_stop env maxPag _ i s hp]
    exact hm
  | succ f ih =>
    intro i s hf hm
    by_cases hp : s.paginationCount < maxPag
    · unfold processLoop
      simp only [hp, if_true]
      by_cases hc : env.cancelled i
      · rw [if_pos hc]
        exact hm
      · simp only [hc, Bool.false_eq_true, if_false]
        cases hfetch : env.fetch i with
        | none => simpa using hm
        | some page =>
          dsimp only
          split
          · exact ih (i + 1) _ (by simp; omega) (by simpa using hm)
          · split
            · refine ih (i + 1) _ (by simp [pageSuccessStep_paginationCount]; omega) ?_
              exact pageSuccessStep_mgr _ page _ _ d (by simpa using hm)
            · exact pageSuccessStep_mgr _ page _ _ d (by simpa using hm)
    · rw [processLoop_stop env maxPag _ i s hp]
      exact hm

theorem processLoop_total (env : CycleEnv) (maxPag : Nat) :
    ∀ (fuel i : Nat) (s : CycleState), maxPag - s.paginationCount ≤ fuel →
      s.fetchCalls = i →
      (processLoop env maxPag fuel i s).1.totalEventsProcessed
          = s.totalEventsProcessed
            + ∑ j ∈ Finset.Ico i (processLoop env maxPag fuel i s).1.fetchCalls,
                pageContribution env j
      ∧ (processLoop env maxPag fuel i s).1.statsEvents
          = s.statsEvents
            + ∑ j ∈ Finset.Ico i (processLoop env maxPag fuel i s).1.fetchCalls,
                pageContribution env j := by
  intro fuel
  induction fuel with
  | zero =>
    intro i s hf hi
    have hp : ¬ s.paginationCount < maxPag := by omega
    rw [processLoop_stop env maxPag _ i s hp]
    dsimp only
    rw [hi]
    simp
  | succ f ih =>
    intro i s hf hi
    by_cases hp : s.paginationCount < maxPag
    · unfold processLoop
      simp only [hp, if_true]
      by_cases hc : env.cancelled i
      · rw [if_pos hc]
        dsimp only
        rw [hi]
        simp
      · simp only [hc, Bool.false_eq_true, if_false]
        cases hfetch : env.fetch i with
        | none =>
          dsimp only
          rw [hi]
          rw [Finset.sum_Ico_succ_top (Nat.le_refl i), Finset.Ico_self]
          simp [pageContribution, hfetch]
        | some page =>
          dsimp only
          split
          · rename_i hfail
            have hfuel : maxPag - (s.paginationCount + 1) ≤ f := by omega
            have hih := ih (i + 1)
              { s with fetchCalls := s.fetchCalls + 1,
                       paginationCount := s.paginationCount + 1,
                       numErrors := s.numErrors + 1 }
              (by simpa using hfuel) (by simp [hi])
            have hmono := processLoop_fetchCalls_mono env maxPag f (i + 1)
              { s with fetchCalls := s.fetchCalls + 1,
                       paginationCount := s.paginationCount + 1,
                       numErrors := s.numErrors + 1 }
              (by simpa using hfuel)
            simp only at hih hmono
            have hlt : i < (processLoop env maxPag f (i + 1)
                { s with fetchCalls := s.fetchCalls + 1,
                         paginationCount := s.paginationCount + 1,
                         numErrors := s.numErrors + 1 }).1.fetchCalls := by
              omega
            have hcontrib : pageContribution env i = 0 := by
              simp [pageContribution, hfetch, hfail.2]
            rw [Finset.sum_eq_sum_Ico_succ_bot hlt, hcontrib]
            constructor
            · rw [hih.1]
              omega
            · rw [hih.2]
              omega
          · rename_i hnofail
            have hcontrib : pageContribution env i
                = (if 0 < page.events.length then (forwardEvents page.events).1
                   else 0) := by
              by_cases hlen : 0 < page.events.length
              · have hfr : (forwardEvents page.events).2 = true := by
                  rcases Bool.eq_false_or_eq_true (forwardEvents page.events).2
                    with h | h
                  · exact h
                  · exact absurd ⟨hlen, h⟩ hnofail
                simp [pageContribution, hfetch, hfr, hlen]
              · have hnil : page.events = [] :=
                  List.eq_nil_of_length_eq_zero (by omega)
                simp [pageContribution, hfetch, hnil, forwardEvents]
            have htot := pageSuccessStep_total
              { s with fetchCalls := s.fetchCalls + 1,
                       paginationCount := s.paginationCount + 1 }
              page (forwardEvents page.events).1 (env.persist i)
            have hse := pageSuccessStep_statsEvents
              { s with fetchCalls := s.fetchCalls + 1,
                       paginationCount := s.paginationCount + 1 }
              page (forwardEvents page.events).1 (env.persist i)
            have hfc := pageSuccessStep_fetchCalls
              { s with fetchCalls := s.fetchCalls + 1,
                       paginationCount := s.paginationCount + 1 }
              page (forwardEvents page.events).1 (env.persist i)
            have hpc := pageSuccessStep_paginationCount
              { s with fetchCalls := s.fetchCalls + 1,
                       paginationCount := s.paginationCount + 1 }
              page (forwardEvents page.events).1 (env.persist i)
            simp only at htot hse hfc hpc
            split
            · have hfuel : maxPag - (s.paginationCount + 1) ≤ f := by omega
              have hih := ih (i + 1) _ (by rw [hpc]; simpa using hfuel)
                (by rw [hfc]; simp [hi])
              have hmono := processLoop_fetchCalls_mono env maxPag f (i + 1) _
                (by rw [hpc]; simpa using hfuel)
              rw [hfc] at hmono
              have hlt : i < (processLoop env maxPag f (i + 1)
                  (pageSuccessStep
                    { s with fetchCalls := s.fetchCalls + 1,
                             paginationCount := s.paginationCount + 1 }
                    page (forwardEvents page.events).1 (env.persist i))).1.fetchCalls := by
                omega
              rw [Finset.sum_eq_sum_Ico_succ_bot hlt, hcontrib]
              constructor
              · rw [hih.1, htot]
                split <;> omega
              · rw [hih.2, hse]
                split <;> omega
            · rw [htot, hse, hfc, hi,
                Finset.sum_Ico_succ_top (Nat.le_refl i), Finset.Ico_self, hcontrib]
              constructor
              · split <;> simp
              · split <;> simp
    · rw [processLoop_stop env maxPag _ i s hp]
      dsimp only
      rw [hi]
      simp

theorem processLoop_fetchCalls_exact (env : CycleEnv) (maxPag : Nat)
    (hc : ∀ j, env.cancelled j = false)
    (hgood : ∀ j, ∃ p, env.fetch j = some p ∧ p.hasMore = true) :
    ∀ (fuel i : Nat) (s : CycleState), maxPag - s.paginationCount ≤ fuel →
      (processLoop env maxPag fuel i s).1.fetchCalls
        = s.fetchCalls + (maxPag - s.paginationCount) := by
  intro fuel
  induction fuel with
  | zero =>
    intro i s hf
    have hp : ¬ s.paginationCount < maxPag := by omega
    rw [processLoop_stop env maxPag _ i s hp]
    dsimp only
    omega
  | succ f ih =>
    intro i s hf
    by_cases hp : s.paginationCount < maxPag
    · unfold processLoop
      simp only [hp, if_true, hc i, Bool.false_eq_true, if_false]
      obtain ⟨page, hfp, hmore⟩ := hgood i
      rw [hfp]
      dsimp only
      split
      · rw [ih (i + 1) _ (by simp; omega)]
        simp
        omega
      · rw [ih (i + 1) _ (by rw [pageSuccessStep_paginationCount]; simp; omega),
          pageSuccessStep_fetchCalls, pageSuccessStep_paginationCount]
        simp
        omega
    · rw [processLoop_stop env maxPag _ i s hp]
      dsimp only
      omega

/-! ### Claim theorems for the cycle orchestrator and marker store -/

/-- C1: `update(m)` with `m` empty or equal to the in-memory marker is a
no-op that reports success; otherwise the in-memory marker becomes `m`
exactly when both persistence operations succeed, and on any failure it
stays at its prior value with the failure reported.  Consequently, after
any cycle the manager's marker equals the last page marker that was
successfully persisted (`savedMarkers` records, in order, exactly the
page markers whose persistence write succeeded), or the initial marker
when none was. -/
theorem marker_store_atomicity :
    (∀ cur m mk w, (m = "" ∨ m = cur) → markerUpdate cur m mk w = (cur, true))
    ∧ (∀ cur m mk w, (markerUpdate cur m mk w).2 = false →
        (markerUpdate cur m mk w).1 = cur)
    ∧ (∀ cur m mk w, m ≠ "" → m ≠ cur →
        markerUpdate cur m mk w = if mk && w then (m, true) else (cur, false))
    ∧ (∀ env maxPag initMarker,
        (processEvents env maxPag initMarker).1.mgrMarker
          = (processEvents env maxPag initMarker).1.savedMarkers.getLastD
              initMarker) := by
  refine ⟨?_, ?_, ?_, ?_⟩
  · intro cur m mk w h
    unfold markerUpdate
    rw [if_pos h]
  · intro cur m mk w h
    by_cases hm : m = "" ∨ m = cur
    · unfold markerUpdate at h ⊢
      rw [if_pos hm] at h ⊢
    · cases mk <;> cases w <;> simp_all [markerUpdate, markerSave]
  · intro cur m mk w hm hc
    have hor : ¬ (m = "" ∨ m = cur) := by tauto
    unfold markerUpdate markerSave
    rw [if_neg hor, if_neg hm]
    cases mk <;> cases w <;> simp
  · intro env maxPag initMarker
    exact processLoop_mgr env maxPag initMarker maxPag 0 (initState initMarker)
      (by simp [initState]) (by simp [initState])

/-- Concrete instances of C1: a no-op update, a failed persist leaving
the prior value, and a successful persist advancing it. -/
theorem marker_store_atomicity_witness :
    markerUpdate "a" "" true true = ("a", true)
    ∧ markerUpdate "a" "b" true false = ("a", false)
    ∧ markerUpdate "a" "b" true true = ("b", true) := by
  refine ⟨marker_store_atomicity.1 "a" "" true true (Or.inl rfl), ?_, ?_⟩
  · have h := marker_store_atomicity.2.2.1 "a" "b" true false
      (by decide) (by decide)
    simpa using h
  · have h := marker_store_atomicity.2.2.1 "a" "b" true true
      (by decide) (by decide)
    simpa using h

/-- C4: a cycle performs at most `MaxPagination` fetches whatever the
environment does; and when no cancellation occurs, every fetch succeeds,
and every page carries a non-empty marker, at least one event and
`HasMore = true`, it performs exactly `MaxPagination` fetches and
stops. -/
theorem pagination_bound (env : CycleEnv) (maxPag : Nat) (initMarker : String) :
    (processEvents env maxPag initMarker).1.fetchCalls ≤ maxPag
    ∧ ((∀ j, env.cancelled j = false) →
        (∀ j, ∃ p, env.fetch j = some p ∧ p.newMarker ≠ ""
          ∧ 0 < p.events.length ∧ p.hasMore = true) →
        (processEvents env maxPag initMarker).1.fetchCalls = maxPag) := by
  constructor
  · have h := processLoop_fetchCalls_le env maxPag maxPag 0
      (initState initMarker) (by simp [initState])
    simpa [processEvents, initState] using h
  · intro hc hgood
    have hgood' : ∀ j, ∃ p, env.fetch j = some p ∧ p.hasMore = true := by
      intro j
      obtain ⟨p, h1, _, _, h4⟩ := hgood j
      exact ⟨p, h1, h4⟩
    have h := processLoop_fetchCalls_exact env maxPag hc hgood' maxPag 0
      (initState initMarker) (by simp [initState])
    simpa [processEvents, initState] using h

/-- Concrete instance of C4: pagination ceiling 3 against a server that
always reports more data with non-empty markers and non-empty pages —
exactly 3 fetches. -/
theorem pagination_bound_witness :
    (processEvents
        ⟨fun _ => false,
         fun _ => some ⟨[⟨true, true, true⟩], "m", true⟩,
         fun _ => (true, true)⟩ 3 "").1.fetchCalls = 3 := by
  refine (pagination_bound _ 3 "").2 (fun _ => rfl) ?_
  intro j
  exact ⟨⟨[⟨true, true, true⟩], "m", true⟩, rfl, by decide, by decide, rfl⟩

/-- C2 (amended): a forwarding failure for one record aborts the
remaining records of that batch — `forwardEvents` returns the count of
records forwarded before the failing one, independent of what follows it
— but it does **not** propagate as a cycle error: the loop counts and
logs the error, skips that page's totals, marker update and `HasMore`
check, and continues fetching further pages; absent cancellation,
`ProcessEvents` reports success to the scheduler. -/
theorem forwarding_failure_aborts_batch :
    (∀ pre d post, (∀ e ∈ pre, forwardOne e = true) → forwardOne d = false →
        forwardEvents (pre ++ d :: post) = (pre.length, false))
    ∧ (∀ env maxPag initMarker, (∀ j, env.cancelled j = false) →
        (processEvents env maxPag initMarker).2 = .ok) := by
  constructor
  · intro pre
    induction pre with
    | nil =>
      intro d post _ hd
      simp only [forwardOne, Bool.or_eq_false_iff, Bool.and_eq_false_iff] at hd
      obtain ⟨h1, h2⟩ := hd
      unfold forwardEvents
      simp only [List.nil_append, h1, Bool.false_eq_true, if_false]
      rcases h2 with h2 | h2 <;> simp [h2]
    | cons e rest ih =>
      intro d post hpre hd
      have he : forwardOne e = true := hpre e (by simp)
      have hrest := ih d post (fun x hx => hpre x (by simp [hx])) hd
      simp only [forwardOne, Bool.or_eq_true, Bool.and_eq_true] at he
      unfold forwardEvents
      rcases he with he | ⟨he1, he2⟩
      · simp [he, hrest]
      · cases hf : e.firstWrite
        · simp [hf, he1, he2, hrest]
        · simp [hf, hrest]
  · intro env maxPag initMarker hc
    exact processLoop_ok_of_no_cancel env maxPag hc maxPag 0
      (initState initMarker) (by simp [initState])

/-- Concrete instance of the amended C2: batch `[ok, failing, ok]` stops
at the failing record with count 1, and a cycle containing it still
reports success. -/
theorem forwarding_failure_aborts_batch_witness :
    forwardEvents [⟨true, true, true⟩, ⟨false, false, false⟩, ⟨true, true, true⟩]
      = (1, false)
    ∧ (processEvents
        ⟨fun _ => false,
         fun j => if j = 0
           then some ⟨[⟨true, true, true⟩, ⟨false, false, false⟩], "m1", true⟩
           else some ⟨[⟨true, true, true⟩], "m2", true⟩,
         fun _ => (true, true)⟩ 2 "").2 = .ok := by
  constructor
  · have h := forwarding_failure_aborts_batch.1 [⟨true, true, true⟩]
      ⟨false, false, false⟩ [⟨true, true, true⟩] (by decide) (by decide)
    simpa using h
  · exact forwarding_failure_aborts_batch.2 _ 2 "" (fun _ => rfl)

/-- Counterexample to C2 as stated: the only record of page 1 fails to
forward (write, reconnect and retry all fail), yet the cycle does not
abort — it fetches page 2 as well (2 fetches) and `ProcessEvents`
returns success (`.ok`), not a cycle error. -/
theorem forwarding_failure_cycle_cex :
    forwardEvents [⟨false, false, false⟩] = (0, false)
    ∧ (processEvents
        ⟨fun _ => false,
         fun j => if j = 0 then some ⟨[⟨false, false, false⟩], "m1", true⟩
           else some ⟨[⟨true, true, true⟩], "m2", true⟩,
         fun _ => (true, true)⟩ 2 "").2 = .ok
    ∧ (processEvents
        ⟨fun _ => false,
         fun j => if j = 0 then some ⟨[⟨false, false, false⟩], "m1", true⟩
           else some ⟨[⟨true, true, true⟩], "m2", true⟩,
         fun _ => (true, true)⟩ 2 "").1.fetchCalls = 2 := by
  refine ⟨by decide, by decide, by decide⟩

/-- C3 (amended): a cycle's reported total (and the delta applied to the
shared events counter, which always equals it) is the sum over fetches of
each page's contribution, where a batch aborted by a mid-batch forwarding
failure contributes 0 — the records it forwarded before failing are
discarded from both counters, not included. -/
theorem cycle_total_eq_sum (env : CycleEnv) (maxPag : Nat) (initMarker : String) :
    (processEvents env maxPag initMarker).1.totalEventsProcessed
      = ∑ j ∈ Finset.range (processEvents env maxPag initMarker).1.fetchCalls,
          pageContribution env j
    ∧ (processEvents env maxPag initMarker).1.statsEvents
      = (processEvents env maxPag initMarker).1.totalEventsProcessed := by
  have h := processLoop_total env maxPag maxPag 0 (initState initMarker)
    (by simp [initState]) (by simp [initState])
  constructor
  · rw [Finset.range_eq_Ico]
    simpa [processEvents, initState] using h.1
  · simp only [processEvents]
    rw [h.2, h.1]
    rfl

/-- Counterexample to C3 as stated: a two-record batch forwards its first
record to the delivery channel successfully (`forwardEvents` returns
count 1) and then fails; the cycle total and the shared counter delta are
both 0 — the successfully forwarded record is **not** counted. -/
theorem cycle_total_cex :
    forwardEvents [⟨true, true, true⟩, ⟨false, false, false⟩] = (1, false)
    ∧ (processEvents
        ⟨fun _ => false,
         fun _ => some ⟨[⟨true, true, true⟩, ⟨false, false, false⟩], "m1", true⟩,
         fun _ => (true, true)⟩ 1 "").1.totalEventsProcessed = 0
    ∧ (processEvents
        ⟨fun _ => false,
         fun _ => some ⟨[⟨true, true, true⟩, ⟨false, false, false⟩], "m1", true⟩,
         fun _ => (true, true)⟩ 1 "").1.statsEvents = 0 := by
  refine ⟨by decide, by decide, by decide⟩

/-- C7 (amended): when the pre-page cancellation check fires,
`ProcessEvents` returns an error, and that **is** treated as a hard cycle
failure: `ProcessWithRecovery` increments the failed-request counter and
returns `false` — on a ticker tick the scheduler then applies backoff
(`backoffStep cap d false` doubles the delay up to the cap).  The
statistics do reflect the partial progress made before cancellation: the
events counter delta equals the sum of the completed pages'
contributions. -/
theorem cancellation_is_cycle_failure (env : CycleEnv) (maxPag : Nat)
    (initMarker : String)
    (h : (processEvents env maxPag initMarker).2 = .cancelledErr) :
    (processWithRecovery env maxPag initMarker).2 = false
    ∧ (processWithRecovery env maxPag initMarker).1.statsFailed = 1
    ∧ (processWithRecovery env maxPag initMarker).1.statsEvents
        = ∑ j ∈ Finset.range
            (processWithRecovery env maxPag initMarker).1.fetchCalls,
            pageContribution env j
    ∧ (∀ cap d, backoffStep cap d false = if 2 * d > cap then cap else 2 * d) := by
  have hsf := processLoop_statsFailed env maxPag maxPag 0 (initState initMarker)
    (by simp [initState])
  have htot := processLoop_total env maxPag maxPag 0 (initState initMarker)
    (by simp [initState]) (by simp [initState])
  unfold processWithRecovery
  simp only [processEvents] at h ⊢
  rw [h]
  refine ⟨rfl, ?_, ?_, fun cap d => rfl⟩
  · dsimp only
    have hz : (initState initMarker).statsFailed = 0 := rfl
    omega
  · dsimp only
    rw [Finset.range_eq_Ico, htot.2]
    simp [initState]

/-- Concrete instance of the amended C7: cancellation before page 2
yields a failed cycle with the failed-request counter incremented, while
the 2 events forwarded on page 1 remain counted. -/
theorem cancellation_is_cycle_failure_witness :
    (processWithRecovery
        ⟨fun i => i = 1,
         fun _ => some ⟨[⟨true, true, true⟩, ⟨true, true, true⟩], "m1", true⟩,
         fun _ => (true, true)⟩ 5 "x").2 = false
    ∧ (processWithRecovery
        ⟨fun i => i = 1,
         fun _ => some ⟨[⟨true, true, true⟩, ⟨true, true, true⟩], "m1", true⟩,
         fun _ => (true, true)⟩ 5 "x").1.statsFailed = 1 := by
  have h := cancellation_is_cycle_failure
    ⟨fun i => i = 1,
     fun _ => some ⟨[⟨true, true, true⟩, ⟨true, true, true⟩], "m1", true⟩,
     fun _ => (true, true)⟩ 5 "x" (by decide)
  exact ⟨h.1, h.2.1⟩

/-- Counterexample to C7 as stated: the same cancelled run — the claim
says cancellation is "not counted as a hard failure" and "does not
increment the failed-request counter", but the failed-request counter is
incremented (1) and the cycle result handed to the scheduler is `false`,
which triggers backoff. -/
theorem cancellation_not_hard_failure_cex :
    (processWithRecovery
        ⟨fun i => i = 0,
         fun _ => some ⟨[⟨true, true, true⟩], "m1", true⟩,
         fun _ => (true, true)⟩ 3 "").2 = false
    ∧ (processWithRecovery
        ⟨fun i => i = 0,
         fun _ => some ⟨[⟨true, true, true⟩], "m1", true⟩,
         fun _ => (true, true)⟩ 3 "").1.statsFailed = 1 := by
  refine ⟨by decide, by decide⟩

/-- C10: the cycle reports failure to the scheduler only on cancellation
(panics do not occur in this model): with no cancellation signal the
cycle returns success whatever the fetch and delivery outcomes — so
fetch or delivery errors alone never cause the scheduler to apply
backoff — and a `false` cycle result implies `ProcessEvents` ended with
the cancellation error. -/
theorem cycle_failure_only_on_cancellation (env : CycleEnv) (maxPag : Nat)
    (initMarker : String) :
    ((∀ j, env.cancelled j = false) →
        (processWithRecovery env maxPag initMarker).2 = true)
    ∧ ((processWithRecovery env maxPag initMarker).2 = false →
        (processEvents env maxPag initMarker).2 = .cancelledErr) := by
  constructor
  · intro hc
    have h := processLoop_ok_of_no_cancel env maxPag hc maxPag 0
      (initState initMarker) (by simp [initState])
    unfold processWithRecovery
    simp only [processEvents] at h ⊢
    rw [h]
  · intro h
    unfold processWithRecovery at h
    dsimp only at h
    cases hres : (processEvents env maxPag initMarker).2 with
    | ok =>
      rw [hres] at h
      simp at h
    | cancelledErr => rfl

/-- Concrete instance of C10: every fetch fails, yet the cycle reports
success (`true`) to the scheduler. -/
theorem cycle_failure_only_on_cancellation_witness :
    (processWithRecovery
        ⟨fun _ => false, fun _ => none, fun _ => (true, true)⟩ 3 "").2 = true := by
  exact (cycle_failure_only_on_cancellation _ 3 "").1 (fun _ => rfl)

/-! ### CEF formatter: the string order used by `sort.Strings` -/

theorem charEq_of_toNat_eq {a b : Char} (h : a.toNat = b.toNat) : a = b := by
  have hv : a.val = b.val := UInt32.toNat.inj h
  exact Char.ext hv

theorem lexLe_total : ∀ as bs : List Char,
    lexLe as bs = true ∨ lexLe bs as = true := by
  intro as
  induction as with
  | nil => intro bs; left; rfl
  | cons a as ih =>
    intro bs
    cases bs with
    | nil => right; rfl
    | cons b bs =>
      simp only [lexLe]
      by_cases hab : a.toNat < b.toNat
      · left; simp [hab]
      · by_cases hba : b.toNat < a.toNat
        · right; simp [hba]
        · rcases ih bs with h | h
          · left; simp [hab, hba, h]
          · right; simp [hab, hba, h]

theorem lexLe_trans : ∀ as bs cs : List Char,
    lexLe as bs = true → lexLe bs cs = true → lexLe as cs = true := by
  intro as
  induction as with
  | nil => intro bs cs _ _; rfl
  | cons a as ih =>
    intro bs cs h1 h2
    cases bs with
    | nil => simp [lexLe] at h1
    | cons b bs =>
      cases cs with
      | nil => simp [lexLe] at h2
      | cons c cs =>
        simp only [lexLe] at h1 h2 ⊢
        by_cases hab : a.toNat < b.toNat
        · by_cases hbc : b.toNat < c.toNat
          · have hac : a.toNat < c.toNat := by omega
            simp [hac]
          · by_cases hcb : c.toNat < b.toNat
            · simp [hbc, hcb] at h2
            · have hac : a.toNat < c.toNat := by omega
              simp [hac]
        · by_cases hba : b.toNat < a.toNat
          · simp [hab, hba] at h1
          · by_cases hbc : b.toNat < c.toNat
            · have hac : a.toNat < c.toNat := by omega
              simp [hac]
            · by_cases hcb : c.toNat < b.toNat
              · simp [hbc, hcb] at h2
              · have hac : ¬ a.toNat < c.toNat := by omega
                have hca : ¬ c.toNat < a.toNat := by omega
                simp [hab, hba] at h1
                simp [hbc, hcb] at h2
                simp [hac, hca]
                exact ih bs cs h1 h2

theorem lexLe_antisymm : ∀ as bs : List Char,
    lexLe as bs = true → lexLe bs as = true → as = bs := by
  intro as
  induction as with
  | nil =>
    intro bs h1 h2
    cases bs with
    | nil => rfl
    | cons b bs => simp [lexLe] at h2
  | cons a as ih =>
    intro bs h1 h2
    cases bs with
    | nil => simp [lexLe] at h1
    | cons b bs =>
      simp only [lexLe] at h1 h2
      by_cases hab : a.toNat < b.toNat
      · have hba : ¬ b.toNat < a.toNat := by omega
        simp [hab, hba] at h2
      · by_cases hba : b.toNat < a.toNat
        · simp [hab, hba] at h1
        · simp [hab, hba] at h1 h2
          have hch : a = b := charEq_of_toNat_eq (by omega)
          rw [hch, ih bs h1 h2]

instance : IsTotal String (fun a b => strLe a b = true) :=
  ⟨fun a b => lexLe_total a.data b.data⟩

instance : IsTrans String (fun a b => strLe a b = true) :=
  ⟨fun a b c h1 h2 => lexLe_trans a.data b.data c.data h1 h2⟩

instance : IsAntisymm String (fun a b => strLe a b = true) := by
  refine ⟨fun a b h1 h2 => ?_⟩
  cases a with
  | mk da =>
    cases b with
    | mk db =>
      have h := lexLe_antisymm da db h1 h2
      rw [h]

/-- Sorting is invariant under permutation: two enumerations of the same
key set sort to the same list. -/
theorem sortStrings_perm_eq {l₁ l₂ : List String} (h : l₁.Perm l₂) :
    sortStrings l₁ = sortStrings l₂ := by
  unfold sortStrings
  exact List.eq_of_perm_of_sorted
    (((List.perm_insertionSort _ l₁).trans h).trans
      (List.perm_insertionSort _ l₂).symm)
    (List.sorted_insertionSort _ l₁)
    (List.sorted_insertionSort _ l₂)

/-! ### CEF formatter: the `extensions` map -/

theorem extKeys_setExt (l : List (String × String)) (k v : String) :
    extKeys (setExt l k v)
      = if k ∈ extKeys l then extKeys l else extKeys l ++ [k] := by
  induction l with
  | nil => simp [setExt, extKeys]
  | cons p rest ih =>
    obtain ⟨k0, v0⟩ := p
    by_cases hk : k0 = k
    · subst hk
      simp [setExt, extKeys]
    · by_cases hm : k ∈ extKeys rest
      · simp only [setExt, hk, if_false, extKeys, List.map_cons] at ih ⊢
        simp only [extKeys] at hm
        rw [ih, if_pos hm, if_pos (List.mem_cons_of_mem k0 hm)]
      · simp only [setExt, hk, if_false, extKeys, List.map_cons] at ih ⊢
        simp only [extKeys] at hm
        rw [ih, if_neg hm,
          if_neg (fun hc => (List.mem_cons.mp hc).elim
            (fun hc1 => hk hc1.symm) hm), List.cons_append]

theorem findExt_setExt (l : List (String × String)) (k v k' : String) :
    findExt (setExt l k v) k' = if k' = k then some v else findExt l k' := by
  induction l with
  | nil =>
    simp only [setExt, findExt]
    by_cases h : k' = k
    · subst h
      rfl
    · rw [if_neg (fun hc => h hc.symm), if_neg h]
  | cons p rest ih =>
    obtain ⟨k0, v0⟩ := p
    by_cases hk : k0 = k
    · subst hk
      simp only [setExt, if_pos rfl, findExt]
      by_cases h : k0 = k'
      · subst h
        rw [if_pos rfl, if_pos rfl]
      · rw [if_neg h, if_neg (fun hc => h hc.symm), if_neg h]
    · simp only [setExt, hk, if_false, findExt]
      by_cases h : k0 = k'
      · subst h
        rw [if_pos rfl, if_neg hk, if_pos rfl]
      · rw [if_neg h, if_neg h, ih]

theorem findExt_eq_none_of_not_mem (l : List (String × String)) (k : String)
    (h : k ∉ extKeys l) : findExt l k = none := by
  induction l with
  | nil => rfl
  | cons p rest ih =>
    obtain ⟨k0, v0⟩ := p
    simp only [extKeys, List.map_cons, List.mem_cons] at h
    push_neg at h
    simp only [findExt]
    rw [if_neg (fun hc => h.1 hc.symm)]
    exact ih (by simpa [extKeys] using h.2)

theorem extKeys_eraseExt (l : List (String × String)) (k : String) :
    extKeys (eraseExt l k) = (extKeys l).erase k := by
  induction l with
  | nil => rfl
  | cons p rest ih =>
    obtain ⟨k0, v0⟩ := p
    by_cases hk : k0 = k
    · subst hk
      simp [eraseExt, extKeys, List.erase_cons]
    · simp only [eraseExt, hk, if_false, extKeys, List.map_cons,
        List.erase_cons]
      simp only [extKeys] at ih
      rw [ih]
      simp [hk]

theorem findExt_eraseExt (l : List (String × String)) (k k' : String)
    (hnd : (extKeys l).Nodup) :
    findExt (eraseExt l k) k' = if k' = k then none else findExt l k' := by
  induction l with
  | nil =>
    simp only [eraseExt, findExt]
    split <;> rfl
  | cons p rest ih =>
    obtain ⟨k0, v0⟩ := p
    simp only [extKeys, List.map_cons, List.nodup_cons] at hnd
    by_cases hk : k0 = k
    · subst hk
      have hred : eraseExt ((k0, v0) :: rest) k0 = rest := by
        simp [eraseExt]
      rw [hred]
      by_cases h : k' = k0
      · subst h
        rw [if_pos rfl]
        exact findExt_eq_none_of_not_mem rest k' (by simpa [extKeys] using hnd.1)
      · rw [if_neg h]
        simp only [findExt]
        rw [if_neg (fun hc => h hc.symm)]
    · simp only [eraseExt, hk, if_false, findExt]
      by_cases h : k0 = k'
      · subst h
        rw [if_pos rfl, if_neg hk, if_pos rfl]
      · rw [if_neg h, ih (by simpa [extKeys] using hnd.2), if_neg h]

theorem applyWrites_nil (e : List (String × String)) : applyWrites e [] = e := rfl

theorem applyWrites_cons (e : List (String × String)) (w : String × String)
    (ws : List (String × String)) :
    applyWrites e (w :: ws) = applyWrites (setExt e w.1 w.2) ws := rfl

theorem applyWrites_append (e a b : List (String × String)) :
    applyWrites e (a ++ b) = applyWrites (applyWrites e a) b :=
  List.foldl_append _ _ _ _

theorem findExt_applyWrites_not_mem (ws : List (String × String)) :
    ∀ (e : List (String × String)) (k : String), k ∉ ws.map Prod.fst →
      findExt (applyWrites e ws) k = findExt e k := by
  induction ws with
  | nil => intro e k _; rfl
  | cons w rest ih =>
    intro e k hk
    simp only [List.map_cons, List.mem_cons] at hk
    push_neg at hk
    rw [applyWrites_cons, ih _ k hk.2, findExt_setExt, if_neg hk.1]

theorem findExt_applyWrites_mem (ws : List (String × String)) :
    ∀ (e : List (String × String)) (k v : String),
      (ws.map Prod.fst).Nodup → (k, v) ∈ ws →
      findExt (applyWrites e ws) k = some v := by
  induction ws with
  | nil => intro e k v _ hmem; simp at hmem
  | cons w rest ih =>
    intro e k v hnd hmem
    simp only [List.map_cons, List.nodup_cons] at hnd
    rw [applyWrites_cons]
    rcases List.mem_cons.mp hmem with hw | hw
    · have hk : k = w.1 := by rw [← hw]
      have hv : v = w.2 := by rw [← hw]
      subst hk
      subst hv
      rw [findExt_applyWrites_not_mem rest _ w.1 hnd.1, findExt_setExt,
        if_pos rfl]
    · exact ih _ k v hnd.2 hw

theorem mem_extKeys_applyWrites (ws : List (String × String)) :
    ∀ (e : List (String × String)) (k : String),
      (k ∈ extKeys (applyWrites e ws)
        ↔ k ∈ extKeys e ∨ k ∈ ws.map Prod.fst) := by
  induction ws with
  | nil => intro e k; simp [applyWrites_nil]
  | cons w rest ih =>
    intro e k
    rw [applyWrites_cons, ih]
    rw [extKeys_setExt]
    by_cases hm : w.1 ∈ extKeys e
    · rw [if_pos hm]
      simp only [List.map_cons, List.mem_cons]
      constructor
      · rintro (h | h)
        · exact Or.inl h
        · exact Or.inr (Or.inr h)
      · rintro (h | h | h)
        · exact Or.inl h
        · exact Or.inl (h ▸ hm)
        · exact Or.inr h
    · rw [if_neg hm]
      simp only [List.mem_append, List.mem_singleton, List.map_cons,
        List.mem_cons]
      tauto

theorem nodup_extKeys_applyWrites (ws : List (String × String)) :
    ∀ e : List (String × String), (extKeys e).Nodup →
      (extKeys (applyWrites e ws)).Nodup := by
  induction ws with
  | nil => intro e h; exact h
  | cons w rest ih =>
    intro e h
    rw [applyWrites_cons]
    refine ih _ ?_
    rw [extKeys_setExt]
    by_cases hm : w.1 ∈ extKeys e
    · rw [if_pos hm]; exact h
    · rw [if_neg hm]
      simp [List.nodup_append, h, hm]

/-! ### CEF formatter: the two loops as write lists -/

theorem mappingLoop_eq_applyWrites (fields : String → Option String) :
    ∀ (mappings e : List (String × String)),
      mappings.foldl (fun e st =>
        match fields st.1 with
        | some v => if v = "" then e else setExt e st.2 (sanitizeValue v)
        | none => e) e
      = applyWrites e (mappingWrites fields mappings) := by
  intro mappings
  induction mappings with
  | nil => intro e; rfl
  | cons st rest ih =>
    intro e
    simp only [List.foldl_cons, mappingWrites, List.filterMap_cons]
    cases hf : fields st.1 with
    | none => exact ih e
    | some v =>
      by_cases hv : v = ""
      · simp only [hv, if_pos rfl]
        exact ih e
      · simp only [hv, if_neg hv]
        rw [ih]
        rfl

theorem unmappedLoop_eq_applyWrites (fields : String → Option String)
    (mappings : List (String × String)) :
    ∀ (fieldKeys : List String) (e : List (String × String)),
      fieldKeys.foldl (fun e k =>
        if isMappedField k mappings then e
        else match fields k with
          | some v => if v = "" then e else setExt e k (sanitizeValue v)
          | none => e) e
      = applyWrites e (unmappedWrites fields mappings fieldKeys) := by
  intro fieldKeys
  induction fieldKeys with
  | nil => intro e; rfl
  | cons k rest ih =>
    intro e
    simp only [List.foldl_cons, unmappedWrites, List.filterMap_cons]
    by_cases hmap : isMappedField k mappings
    · simp only [hmap, if_pos, if_true]
      exact ih e
    · simp only [hmap, Bool.false_eq_true, if_false]
      cases hf : fields k with
      | none => exact ih e
      | some v =>
        by_cases hv : v = ""
        · simp only [hv, if_pos rfl]
          exact ih e
        · simp only [hv, if_neg hv]
          rw [ih]
          rfl

/-- The keys written by the unmapped-fields loop form a sublist of the
iteration order, so they are distinct whenever the map's keys are. -/
theorem unmappedWrites_keys_sublist (fields : String → Option String)
    (mappings : List (String × String)) :
    ∀ fieldKeys : List String,
      ((unmappedWrites fields mappings fieldKeys).map Prod.fst).Sublist
        fieldKeys := by
  intro fieldKeys
  induction fieldKeys with
  | nil => exact List.Sublist.refl []
  | cons k rest ih =>
    simp only [unmappedWrites, List.filterMap_cons]
    by_cases hmap : isMappedField k mappings
    · simp only [hmap, if_pos, if_true]
      exact ih.trans (List.sublist_cons_self k rest)
    · simp only [hmap, Bool.false_eq_true, if_false]
      cases hf : fields k with
      | none => exact ih.trans (List.sublist_cons_self k rest)
      | some v =>
        by_cases hv : v = ""
        · simp only [hv, if_pos rfl]
          exact ih.trans (List.sublist_cons_self k rest)
        · simp only [hv, if_neg hv, List.map_cons]
          exact ih.cons₂ k

theorem isMappedField_perm (k : String) {m₁ m₂ : List (String × String)}
    (h : m₁.Perm m₂) : isMappedField k m₁ = isMappedField k m₂ := by
  unfold isMappedField
  by_cases h1 : m₁.any (fun st => st.1 == k)
  · rw [h1]
    rcases List.any_eq_true.mp h1 with ⟨st, hmem, hst⟩
    exact (List.any_eq_true.mpr ⟨st, h.mem_iff.mp hmem, hst⟩).symm
  · have h1' := Bool.eq_false_iff.mpr h1
    rw [h1']
    by_cases h2 : m₂.any (fun st => st.1 == k)
    · rcases List.any_eq_true.mp h2 with ⟨st, hmem, hst⟩
      exact absurd (List.any_eq_true.mpr ⟨st, h.mem_iff.mpr hmem, hst⟩) h1
    · exact (Bool.eq_false_iff.mpr h2).symm

theorem unmappedWrites_congr_mappings (fields : String → Option String)
    {m₁ m₂ : List (String × String)} (h : m₁.Perm m₂)
    (fieldKeys : List String) :
    unmappedWrites fields m₁ fieldKeys = unmappedWrites fields m₂ fieldKeys := by
  unfold unmappedWrites
  refine List.filterMap_congr ?_
  intro k _
  rw [isMappedField_perm k h]

/-- The `extensions` maps built by the two loops denote the same Go map
for any two iteration orders, provided the applicable rename targets are
pairwise distinct. -/
theorem format_ext_equiv (fields : String → Option String)
    {m₁ m₂ : List (String × String)} {fk₁ fk₂ : List String}
    (hm : m₁.Perm m₂) (hk : fk₁.Perm fk₂) (hknd : fk₁.Nodup)
    (hprov : ((mappingWrites fields m₁).map Prod.fst).Nodup) :
    ExtEquiv
      (applyWrites [] (mappingWrites fields m₁ ++ unmappedWrites fields m₁ fk₁))
      (applyWrites []
        (mappingWrites fields m₂ ++ unmappedWrites fields m₂ fk₂)) := by
  have hWperm : (mappingWrites fields m₁).Perm (mappingWrites fields m₂) :=
    List.Perm.filterMap _ hm
  have hU2eq : unmappedWrites fields m₂ fk₂ = unmappedWrites fields m₁ fk₂ :=
    (unmappedWrites_congr_mappings fields hm fk₂).symm
  have hUperm : (unmappedWrites fields m₁ fk₁).Perm
      (unmappedWrites fields m₂ fk₂) := by
    rw [hU2eq]
    exact List.Perm.filterMap _ hk
  have hU1nd : ((unmappedWrites fields m₁ fk₁).map Prod.fst).Nodup :=
    List.Nodup.sublist (unmappedWrites_keys_sublist fields m₁ fk₁) hknd
  have hU2nd : ((unmappedWrites fields m₂ fk₂).map Prod.fst).Nodup :=
    List.Nodup.sublist (unmappedWrites_keys_sublist fields m₂ fk₂)
      (hk.nodup_iff.mp hknd)
  have hW2nd : ((mappingWrites fields m₂).map Prod.fst).Nodup :=
    (hWperm.map Prod.fst).nodup_iff.mp hprov
  have hnd1 : (extKeys (applyWrites []
      (mappingWrites fields m₁ ++ unmappedWrites fields m₁ fk₁))).Nodup :=
    nodup_extKeys_applyWrites _ [] (by simp [extKeys])
  have hnd2 : (extKeys (applyWrites []
      (mappingWrites fields m₂ ++ unmappedWrites fields m₂ fk₂))).Nodup :=
    nodup_extKeys_applyWrites _ [] (by simp [extKeys])
  have hfind : ∀ k,
      findExt (applyWrites []
        (mappingWrites fields m₁ ++ unmappedWrites fields m₁ fk₁)) k
      = findExt (applyWrites []
        (mappingWrites fields m₂ ++ unmappedWrites fields m₂ fk₂)) k := by
    intro k
    rw [applyWrites_append, applyWrites_append]
    by_cases hkU : k ∈ (unmappedWrites fields m₁ fk₁).map Prod.fst
    · rcases List.mem_map.mp hkU with ⟨p, hpmem, hpk⟩
      obtain ⟨pk, pv⟩ := p
      cases hpk
      rw [findExt_applyWrites_mem _ _ _ pv hU1nd hpmem,
        findExt_applyWrites_mem _ _ _ pv hU2nd (hUperm.mem_iff.mp hpmem)]
    · have hkU2 : k ∉ (unmappedWrites fields m₂ fk₂).map Prod.fst :=
        fun hc => hkU ((hUperm.map Prod.fst).mem_iff.mpr hc)
      rw [findExt_applyWrites_not_mem _ _ k hkU,
        findExt_applyWrites_not_mem _ _ k hkU2]
      by_cases hkW : k ∈ (mappingWrites fields m₁).map Prod.fst
      · rcases List.mem_map.mp hkW with ⟨p, hpmem, hpk⟩
        obtain ⟨pk, pv⟩ := p
        cases hpk
        rw [findExt_applyWrites_mem _ _ _ pv hprov hpmem,
          findExt_applyWrites_mem _ _ _ pv hW2nd (hWperm.mem_iff.mp hpmem)]
      · have hkW2 : k ∉ (mappingWrites fields m₂).map Prod.fst :=
          fun hc => hkW ((hWperm.map Prod.fst).mem_iff.mpr hc)
        rw [findExt_applyWrites_not_mem _ _ k hkW,
          findExt_applyWrites_not_mem _ _ k hkW2]
  refine ⟨hfind, ?_, hnd1, hnd2⟩
  rw [List.perm_ext_iff_of_nodup hnd1 hnd2]
  intro k
  rw [mem_extKeys_applyWrites, mem_extKeys_applyWrites]
  simp only [List.map_append, List.mem_append]
  constructor
  · rintro (h | h | h)
    · exact Or.inl h
    · exact Or.inr (Or.inl ((hWperm.map Prod.fst).mem_iff.mp h))
    · exact Or.inr (Or.inr ((hUperm.map Prod.fst).mem_iff.mp h))
  · rintro (h | h | h)
    · exact Or.inl h
    · exact Or.inr (Or.inl ((hWperm.map Prod.fst).mem_iff.mpr h))
    · exact Or.inr (Or.inr ((hUperm.map Prod.fst).mem_iff.mpr h))

theorem eraseExt_equiv {e₁ e₂ : List (String × String)} (k : String)
    (h : ExtEquiv e₁ e₂) : ExtEquiv (eraseExt e₁ k) (eraseExt e₂ k) := by
  obtain ⟨hfind, hperm, hnd1, hnd2⟩ := h
  refine ⟨?_, ?_, ?_, ?_⟩
  · intro k'
    rw [findExt_eraseExt _ _ _ hnd1, findExt_eraseExt _ _ _ hnd2, hfind k']
  · rw [extKeys_eraseExt, extKeys_eraseExt]
    exact hperm.erase k
  · rw [extKeys_eraseExt]
    exact hnd1.erase k
  · rw [extKeys_eraseExt]
    exact hnd2.erase k

theorem orderedFold_congr :
    ∀ (fl : List String) (parts : List String)
      (e₁ e₂ : List (String × String)), ExtEquiv e₁ e₂ →
      (fl.foldl orderedStep (parts, e₁)).1 = (fl.foldl orderedStep (parts, e₂)).1
      ∧ ExtEquiv (fl.foldl orderedStep (parts, e₁)).2
          (fl.foldl orderedStep (parts, e₂)).2 := by
  intro fl
  induction fl with
  | nil => intro parts e₁ e₂ h; exact ⟨rfl, h⟩
  | cons field rest ih =>
    intro parts e₁ e₂ h
    simp only [List.foldl_cons]
    unfold orderedStep
    dsimp only
    rw [h.1 field]
    cases hf : findExt e₂ field with
    | none => exact ih parts e₁ e₂ h
    | some v => exact ih _ _ _ (eraseExt_equiv field h)

/-- C9 (amended): `Format` is deterministic — independent of the native
iteration order of the event's field map and of the rename table —
provided no two rename-table entries that both apply (source present
with a non-empty value) write the same wire field.  Without that
proviso, the rename table's iteration order can change which source's
value survives in the shared wire field (see the counterexample). -/
theorem format_deterministic (vendor product version : String)
    (orderedFields : List String) (fields : String → Option String)
    (m₁ m₂ : List (String × String)) (fk₁ fk₂ : List String)
    (hm : m₁.Perm m₂) (hk : fk₁.Perm fk₂) (hknd : fk₁.Nodup)
    (hprov : ((mappingWrites fields m₁).map Prod.fst).Nodup) :
    Formatter.format ⟨vendor, product, version, m₁, orderedFields⟩ fields fk₁
      = Formatter.format ⟨vendor, product, version, m₂, orderedFields⟩
          fields fk₂ := by
  unfold Formatter.format
  dsimp only
  rw [mappingLoop_eq_applyWrites, mappingLoop_eq_applyWrites,
    unmappedLoop_eq_applyWrites, unmappedLoop_eq_applyWrites,
    ← applyWrites_append, ← applyWrites_append]
  have hequiv := format_ext_equiv fields hm hk hknd hprov
  have hfold := orderedFold_congr orderedFields [] _ _ hequiv
  rw [hfold.1, sortStrings_perm_eq hfold.2.2.1,
    List.map_congr_left (fun a _ => by rw [(hfold.2).1 a])]

/-- Concrete instance of the amended C9: an injective rename table and a
two-key field map formatted under both iteration orders give the same
message. -/
theorem format_deterministic_witness :
    Formatter.format
        ⟨"V", "P", "1", [("src_ip", "src"), ("dst_ip", "dst")], ["src"]⟩
        (fun k => if k = "src_ip" then some "1.2.3.4"
          else if k = "dst_ip" then some "5.6.7.8" else none)
        ["src_ip", "dst_ip"]
      = Formatter.format
        ⟨"V", "P", "1", [("dst_ip", "dst"), ("src_ip", "src")], ["src"]⟩
        (fun k => if k = "src_ip" then some "1.2.3.4"
          else if k = "dst_ip" then some "5.6.7.8" else none)
        ["dst_ip", "src_ip"] := by
  exact format_deterministic "V" "P" "1" ["src"]
    (fun k => if k = "src_ip" then some "1.2.3.4"
      else if k = "dst_ip" then some "5.6.7.8" else none)
    [("src_ip", "src"), ("dst_ip", "dst")] [("dst_ip", "dst"), ("src_ip", "src")]
    ["src_ip", "dst_ip"] ["dst_ip", "src_ip"]
    (by decide) (by decide) (by decide) (by decide)

/-- Counterexample to C9 as stated: the rename table maps two source
fields (`a` and `b`, both present with non-empty values) to the same
wire field `act`; the two iteration orders of the table are permutations
of each other, yet they produce different output strings (`act=2`
versus `act=1`). -/
theorem format_order_dependent_cex :
    ([("a", "act"), ("b", "act")] : List (String × String)).Perm
        [("b", "act"), ("a", "act")]
    ∧ Formatter.format ⟨"V", "P", "1", [("a", "act"), ("b", "act")], []⟩
        (fun k => if k = "a" then some "1"
          else if k = "b" then some "2" else none) ["a", "b"]
      ≠ Formatter.format ⟨"V", "P", "1", [("b", "act"), ("a", "act")], []⟩
        (fun k => if k = "a" then some "1"
          else if k = "b" then some "2" else none) ["a", "b"] := by
  constructor
  · decide
  · decide

end CatoLogger
